import Mathlib

/-!
Verification of the JSON repair / normalization / merge pipeline of
`src/App.jsx` (a single-file React application).  The deterministic core
of that file is shallowly embedded here:

* `correctJsonSyntax`   (App.jsx lines 124-171)  — staged syntax repair;
* `extractFieldsFromJson` (lines 174-217)        — leaf field-path extraction;
* `formatJsonStructure` (lines 220-249)          — structural canonicalization;
* `flattenObject`       (lines 252-298)          — record flattening;
* `processJsonText`     (lines 301-424)          — the per-document pipeline;
* `mergeSelectedEntries` (lines 480-607)         — dataset merge + schema inference.

Modelling conventions:
* JSON values are the inductive `JVal`; objects are association lists in
  insertion order, which is how `JSON.parse` / `Object.keys` present them.
  JSON numbers are modelled as integers (no claim exercises fractions).
* `JSON.parse` is modelled by the executable parser `parseJsonText`; the
  `eval`-based aggressive repair stage runs foreign code, so it is a
  parameter (`aggr`) of the repair function.
* Mutated JS objects (`result[key] = v`) become the pure `recordSet`,
  which overwrites in place or appends, exactly as JS property writes do.
* Nondeterministic environment values (wall-clock ids and timestamps) are
  taken as parameters.
-/

namespace JsonPipeline

/-- A parsed JSON value.  Objects keep their key order, as `JSON.parse`
and `Object.keys` do in the source. -/
inductive JVal where
  | null
  | bool (b : Bool)
  | num (n : Int)
  | str (s : String)
  | arr (xs : List JVal)
  | obj (kvs : List (String × JVal))
deriving Repr

/-- The JS test `typeof x === 'object' && x !== null`, which is true for
arrays and objects. -/
def JVal.isObjLike : JVal → Bool
  | .arr _ => true
  | .obj _ => true
  | _ => false

/-- The `processingOptions` state initialised in App.jsx lines 52-60. -/
structure ProcessingOptions where
  autoFormat : Bool
  detectSchemas : Bool
  flattenNested : Bool
  maxDepth : Nat
  trimLongValues : Bool
  maxValueLength : Nat
  preserveArrays : Bool
deriving Repr, DecidableEq

/-- The initial value of `processingOptions` (App.jsx lines 52-60). -/
def defaultOptions : ProcessingOptions :=
  { autoFormat := true, detectSchemas := true, flattenNested := true,
    maxDepth := 3, trimLongValues := true, maxValueLength := 1000,
    preserveArrays := true }

/-! ### String helpers shared by the embedded functions -/

/-- The first `n` characters of a string (JS `substring(0, n)`). -/
def strTake (n : Nat) (s : String) : String := ⟨s.data.take n⟩

/-- JS `prefix.endsWith('.') ? prefix.slice(0, -1) : prefix`. -/
def stripDot (s : String) : String :=
  if s.data.getLast? = some '.' then ⟨s.data.dropLast⟩ else s

/-- Membership of a character of the JS `\w` class (`[A-Za-z0-9_]`). -/
def isWordChar (c : Char) : Bool := c.isAlphanum || c = '_'

/-- Membership of the JS `\s` class, restricted to its ASCII part. -/
def isSpaceChar (c : Char) : Bool :=
  c = ' ' || c = '\t' || c = '\n' || c = '\r' || c = Char.ofNat 11 || c = Char.ofNat 12

/-! ### The five textual rewrites of `correctJsonSyntax` (App.jsx 135-149)

Each JS `String.replace(regex, template)` with a `g` flag scans left to
right, emits the replacement for each non-overlapping match and resumes
after it.  The regexes involved are deterministic (their character
classes are pairwise disjoint), so each is embedded as a direct scanner.
The scanners recurse on a fuel argument that the wrapper sets to the
input length plus one; every step consumes at least one character, so the
fuel is never exhausted. -/

/-- Matcher for the tail of `/([{,]\s*)(\w+)(\s*:)/` after the bracket:
returns the whitespace run, the key, the second whitespace run and the
rest after the `:`. -/
def keyMatch (l : List Char) : Option (List Char × List Char × List Char × List Char) :=
  let p1 := l.span isSpaceChar
  let p2 := p1.2.span isWordChar
  if p2.1.isEmpty then none
  else
    let p3 := p2.2.span isSpaceChar
    match p3.2 with
    | ':' :: r4 => some (p1.1, p2.1, p3.1, r4)
    | _ => none

/-- Fix 1 (line 136): quote unquoted object keys,
`corrected.replace(/([{,]\s*)(\w+)(\s*:)/g, '$1"$2"$3')`. -/
def fix1Go : Nat → List Char → List Char
  | 0, l => l
  | _ + 1, [] => []
  | fuel + 1, c :: rest =>
      if c = '{' ∨ c = ',' then
        match keyMatch rest with
        | some (ws1, w, ws2, r4) =>
            c :: (ws1 ++ '"' :: w ++ '"' :: (ws2 ++ ':' :: fix1Go fuel r4))
        | none => c :: fix1Go fuel rest
      else c :: fix1Go fuel rest

def fix1 (s : String) : String := ⟨fix1Go (s.data.length + 1) s.data⟩

/-- Fix 2 (line 139): `corrected.replace(/'/g, '"')`. -/
def fix2 (s : String) : String := ⟨s.data.map (fun c => if c = '\'' then '"' else c)⟩

/-- Fix 3 (line 142): `corrected.replace(/}\s*{/g, '}, {')`. -/
def fix3Go : Nat → List Char → List Char
  | 0, l => l
  | _ + 1, [] => []
  | fuel + 1, c :: rest =>
      if c = '}' then
        let p := rest.span isSpaceChar
        match p.2 with
        | '{' :: r2 => '}' :: ',' :: ' ' :: '{' :: fix3Go fuel r2
        | _ => c :: fix3Go fuel rest
      else c :: fix3Go fuel rest

def fix3 (s : String) : String := ⟨fix3Go (s.data.length + 1) s.data⟩

/-- Fix 4, first replace (line 145): `corrected.replace(/,\s*}/g, '}')`. -/
def fix4aGo : Nat → List Char → List Char
  | 0, l => l
  | _ + 1, [] => []
  | fuel + 1, c :: rest =>
      if c = ',' then
        let p := rest.span isSpaceChar
        match p.2 with
        | '}' :: r2 => '}' :: fix4aGo fuel r2
        | _ => c :: fix4aGo fuel rest
      else c :: fix4aGo fuel rest

def fix4a (s : String) : String := ⟨fix4aGo (s.data.length + 1) s.data⟩

/-- Fix 4, second replace (line 146): `corrected.replace(/,\s*\]/g, ']')`. -/
def fix4bGo : Nat → List Char → List Char
  | 0, l => l
  | _ + 1, [] => []
  | fuel + 1, c :: rest =>
      if c = ',' then
        let p := rest.span isSpaceChar
        match p.2 with
        | ']' :: r2 => ']' :: fix4bGo fuel r2
        | _ => c :: fix4bGo fuel rest
      else c :: fix4bGo fuel rest

def fix4b (s : String) : String := ⟨fix4bGo (s.data.length + 1) s.data⟩

/-- The character class `["\\/bfnrtu]` of recognised escape heads (line 149). -/
def isEscapeHead (c : Char) : Bool :=
  c = '"' || c = '\\' || c = '/' || c = 'b' || c = 'f' || c = 'n' || c = 'r' || c = 't' || c = 'u'

/-- Fix 5 (line 149): escape stray backslashes,
`corrected.replace(/([^\\])\\([^"\\/bfnrtu])/g, '$1\\\\$2')`. -/
def fix5Go : Nat → List Char → List Char
  | 0, l => l
  | _ + 1, [] => []
  | fuel + 1, a :: rest =>
      match rest with
      | '\\' :: b :: r2 =>
          if a ≠ '\\' ∧ ¬ isEscapeHead b then
            a :: '\\' :: '\\' :: b :: fix5Go fuel r2
          else a :: fix5Go fuel rest
      | _ => a :: fix5Go fuel rest

def fix5 (s : String) : String := ⟨fix5Go (s.data.length + 1) s.data⟩

/-- The five rewrites of repair stage 2, in source order (lines 135-149). -/
def applyFixes (s : String) : String := fix5 (fix4b (fix4a (fix3 (fix2 (fix1 s)))))

/-! ### A model of `JSON.parse`

`correctJsonSyntax` and `processJsonText` call the host's `JSON.parse`;
it is modelled by a standard recursive-descent parser over the character
list, structural on a fuel argument (one unit per character suffices).
Modelling restriction: numbers are parsed as optionally signed integers
without leading zeros; fractional/exponent forms are rejected. -/

def isDigitChar (c : Char) : Bool := '0' ≤ c ∧ c ≤ '9'

def isJsonWs (c : Char) : Bool := c = ' ' || c = '\t' || c = '\n' || c = '\r'

def dropJsonWs : List Char → List Char
  | [] => []
  | c :: r => if isJsonWs c then dropJsonWs r else c :: r

def digitsVal (ds : List Char) : Nat :=
  ds.foldl (fun acc c => acc * 10 + (c.toNat - '0'.toNat)) 0

def hexDigitVal (c : Char) : Option Nat :=
  if '0' ≤ c ∧ c ≤ '9' then some (c.toNat - '0'.toNat)
  else if 'a' ≤ c ∧ c ≤ 'f' then some (c.toNat - 'a'.toNat + 10)
  else if 'A' ≤ c ∧ c ≤ 'F' then some (c.toNat - 'A'.toNat + 10)
  else none

def unescapeChar : Char → Option Char
  | '"' => some '"'
  | '\\' => some '\\'
  | '/' => some '/'
  | 'b' => some (Char.ofNat 8)
  | 'f' => some (Char.ofNat 12)
  | 'n' => some '\n'
  | 'r' => some '\r'
  | 't' => some '\t'
  | _ => none

/-- Parse the body of a JSON string literal after its opening quote. -/
def parseStringBody (acc : List Char) : List Char → Except String (String × List Char)
  | [] => .error "unterminated string"
  | '"' :: r => .ok (⟨acc.reverse⟩, r)
  | '\\' :: r =>
      match r with
      | 'u' :: h1 :: h2 :: h3 :: h4 :: r2 =>
          match hexDigitVal h1, hexDigitVal h2, hexDigitVal h3, hexDigitVal h4 with
          | some a, some b, some c, some d =>
              parseStringBody (Char.ofNat (((a * 16 + b) * 16 + c) * 16 + d) :: acc) r2
          | _, _, _, _ => .error "bad unicode escape"
      | e :: r2 =>
          match unescapeChar e with
          | some ch => parseStringBody (ch :: acc) r2
          | none => .error "bad escape"
      | [] => .error "unterminated string"
  | c :: r => parseStringBody (c :: acc) r

/-- Parse an integer JSON number (sign, digits, no leading zeros). -/
def parseIntLit (l : List Char) : Except String (Int × List Char) :=
  let sr : Bool × List Char := match l with
    | '-' :: r => (true, r)
    | _ => (false, l)
  let p := sr.2.span isDigitChar
  if p.1.isEmpty then .error "expected digits"
  else if 1 < p.1.length ∧ p.1.headD '0' = '0' then .error "leading zero"
  else match p.2 with
    | '.' :: _ => .error "fractional numbers are outside the model"
    | 'e' :: _ => .error "exponent numbers are outside the model"
    | 'E' :: _ => .error "exponent numbers are outside the model"
    | r => .ok (if sr.1 then -(digitsVal p.1 : Int) else (digitsVal p.1 : Int), r)

mutual
def parseValGo (fuel : Nat) (l : List Char) : Except String (JVal × List Char) :=
  match fuel with
  | 0 => .error "input too deeply nested"
  | fuel + 1 =>
    match dropJsonWs l with
    | 'n' :: 'u' :: 'l' :: 'l' :: r => .ok (.null, r)
    | 't' :: 'r' :: 'u' :: 'e' :: r => .ok (.bool true, r)
    | 'f' :: 'a' :: 'l' :: 's' :: 'e' :: r => .ok (.bool false, r)
    | '"' :: r =>
        match parseStringBody [] r with
        | .ok sr => .ok (.str sr.1, sr.2)
        | .error e => .error e
    | '[' :: r =>
        match dropJsonWs r with
        | ']' :: r2 => .ok (.arr [], r2)
        | r2 =>
            match parseElemsGo fuel r2 with
            | .ok er => .ok (.arr er.1, er.2)
            | .error e => .error e
    | '{' :: r =>
        match dropJsonWs r with
        | '}' :: r2 => .ok (.obj [], r2)
        | r2 =>
            match parseMembersGo fuel r2 with
            | .ok mr => .ok (.obj mr.1, mr.2)
            | .error e => .error e
    | c :: rest =>
        if c = '-' ∨ isDigitChar c then
          match parseIntLit (c :: rest) with
          | .ok nr => .ok (.num nr.1, nr.2)
          | .error e => .error e
        else .error "unexpected token"
    | [] => .error "unexpected end of JSON input"

def parseElemsGo (fuel : Nat) (l : List Char) : Except String (List JVal × List Char) :=
  match fuel with
  | 0 => .error "input too deeply nested"
  | fuel + 1 =>
    match parseValGo fuel l with
    | .error e => .error e
    | .ok vr =>
        match dropJsonWs vr.2 with
        | ',' :: r2 =>
            match parseElemsGo fuel r2 with
            | .ok er => .ok (vr.1 :: er.1, er.2)
            | .error e => .error e
        | ']' :: r2 => .ok ([vr.1], r2)
        | _ => .error "expected comma or end of array"

def parseMembersGo (fuel : Nat) (l : List Char) : Except String (List (String × JVal) × List Char) :=
  match fuel with
  | 0 => .error "input too deeply nested"
  | fuel + 1 =>
    match dropJsonWs l with
    | '"' :: r =>
        match parseStringBody [] r with
        | .error e => .error e
        | .ok kr =>
            match dropJsonWs kr.2 with
            | ':' :: r2 =>
                match parseValGo fuel r2 with
                | .error e => .error e
                | .ok vr =>
                    match dropJsonWs vr.2 with
                    | ',' :: r3 =>
                        match parseMembersGo fuel r3 with
                        | .ok mr => .ok ((kr.1, vr.1) :: mr.1, mr.2)
                        | .error e => .error e
                    | '}' :: r3 => .ok ([(kr.1, vr.1)], r3)
                    | _ => .error "expected comma or end of object"
            | _ => .error "expected colon after key"
    | _ => .error "expected string key"
end

/-- The model of `JSON.parse`: parse a complete document, requiring only
trailing whitespace after the value. -/
def parseJsonText (s : String) : Except String JVal :=
  match parseValGo (s.data.length + 1) s.data with
  | .error e => .error e
  | .ok vr => if (dropJsonWs vr.2).isEmpty then .ok vr.1 else .error "unexpected trailing characters"

/-! ### `formatJsonStructure` (App.jsx 220-249) -/

/-- The long-string truncation of App.jsx 234-238: when enabled and the
value is a string longer than `maxValueLength`, keep its first
`maxValueLength` characters and append the `...` marker. -/
def truncateValue (opts : ProcessingOptions) (v : JVal) : JVal :=
  match v with
  | .str s =>
      if opts.trimLongValues ∧ opts.maxValueLength < s.length
      then .str (strTake opts.maxValueLength s ++ "...")
      else .str s
  | w => w

/-- Lexicographic order on character lists: the comparison JS
`Array.prototype.sort()` applies to string keys (code-unit order). -/
def charListLe : List Char → List Char → Bool
  | [], _ => true
  | _ :: _, [] => false
  | a :: as, b :: bs => if a < b then true else if b < a then false else charListLe as bs

/-- The key ordering used by `Object.keys(jsonObj).sort()` (line 230):
lexicographic string order on the keys of the pairs. -/
def keyLE (a b : String × JVal) : Prop := charListLe a.1.data b.1.data = true

instance : DecidableRel keyLE :=
  fun a b => inferInstanceAs (Decidable (charListLe a.1.data b.1.data = true))

/-- Sorting the members of an object by key (line 230). -/
def sortKvs (kvs : List (String × JVal)) : List (String × JVal) :=
  List.insertionSort keyLE kvs

mutual
/-- App.jsx 220-249.  The source sorts the keys first and then processes
each member; processing is per-member and leaves keys unchanged, so
sorting the processed members instead yields the same object
(`formatMembers_sortKvs` below proves the commutation).  Likewise the
source truncates a member's value before the object test; truncation
only rewrites strings, which never pass that test, so testing first is
equivalent. -/
def formatJsonStructure (opts : ProcessingOptions) : JVal → JVal
  | .null => .null
  | .bool b => .bool b
  | .num n => .num n
  | .str s => .str s
  | .arr xs => .arr (formatArr opts xs)
  | .obj kvs => .obj (sortKvs (formatMembers opts kvs))

def formatArr (opts : ProcessingOptions) : List JVal → List JVal
  | [] => []
  | x :: xs => formatJsonStructure opts x :: formatArr opts xs

def formatMembers (opts : ProcessingOptions) : List (String × JVal) → List (String × JVal)
  | [] => []
  | (k, v) :: rest =>
      (k, if v.isObjLike then formatJsonStructure opts v else truncateValue opts v)
        :: formatMembers opts rest
end

/-- The per-member value transformation of `formatMembers`, named for the
statements below. -/
def formatVal (opts : ProcessingOptions) (v : JVal) : JVal :=
  if v.isObjLike then formatJsonStructure opts v else truncateValue opts v

/-- Append-if-absent, the behaviour of JS `Set.add` followed by
`Array.from`: first occurrences in insertion order. -/
def addUnique {α : Type} [DecidableEq α] (acc : List α) (x : α) : List α :=
  if x ∈ acc then acc else acc ++ [x]

/-! ### `extractFieldsFromJson` (App.jsx 174-217) -/

mutual
/-- App.jsx 174-217.  `pfx` is the accumulated dotted path (always empty
or dot-terminated along real call chains), `depth` the recursion depth
and `maxD` the ceiling (the source calls it with its default 3). -/
def extractFieldsFromJson (opts : ProcessingOptions) (v : JVal) (pfx : String)
    (depth maxD : Nat) : List String :=
  if maxD < depth then [stripDot pfx]
  else match v with
  | .null => []
  | .arr xs =>
      if opts.preserveArrays || xs.isEmpty then [stripDot pfx]
      else extractSamples opts 3 xs pfx depth maxD []
  | .obj kvs => extractMembers opts kvs pfx depth maxD
  | _ => [stripDot pfx]

/-- The array branch of App.jsx 180-201: walk at most the first three
elements (`slice(0, 3)` plus `forEach`), extracting from object-like
elements and adding the stripped path for the others, deduplicating
through a JS `Set` (`addUnique` keeps first occurrences, as `Set` and
`Array.from` do). -/
def extractSamples (opts : ProcessingOptions) (n : Nat) (xs : List JVal) (pfx : String)
    (depth maxD : Nat) (acc : List String) : List String :=
  match n, xs with
  | 0, _ => acc
  | _, [] => acc
  | n + 1, x :: rest =>
      let acc2 :=
        if x.isObjLike then
          (extractFieldsFromJson opts x pfx (depth + 1) maxD).foldl addUnique acc
        else addUnique acc (stripDot pfx)
      extractSamples opts n rest pfx depth maxD acc2

/-- The object branch of App.jsx 202-211: object-like values recurse with
`pfx + key + "."`, all other values contribute `pfx + key` directly. -/
def extractMembers (opts : ProcessingOptions) (kvs : List (String × JVal)) (pfx : String)
    (depth maxD : Nat) : List String :=
  match kvs with
  | [] => []
  | (k, v) :: rest =>
      (if v.isObjLike then extractFieldsFromJson opts v (pfx ++ k ++ ".") (depth + 1) maxD
       else [pfx ++ k])
        ++ extractMembers opts rest pfx depth maxD
end

/-! ### `JSON.stringify` (compact form, as used by the source) -/

def escapeStringChar (c : Char) : List Char :=
  if c = '"' then ['\\', '"']
  else if c = '\\' then ['\\', '\\']
  else if c = '\n' then ['\\', 'n']
  else if c = '\r' then ['\\', 'r']
  else if c = '\t' then ['\\', 't']
  else [c]

def quoteString (s : String) : String :=
  ⟨'"' :: (s.data.flatMap escapeStringChar ++ ['"'])⟩

mutual
/-- Compact `JSON.stringify`, used at App.jsx 254 (depth-exceeded
flattening) and 162 (re-serialising the aggressive-repair result). -/
def stringifyJson : JVal → String
  | .null => "null"
  | .bool b => if b then "true" else "false"
  | .num n => toString n
  | .str s => quoteString s
  | .arr xs => "[" ++ stringifyArr xs ++ "]"
  | .obj kvs => "\x7b" ++ stringifyMembers kvs ++ "\x7d"

def stringifyArr : List JVal → String
  | [] => ""
  | [x] => stringifyJson x
  | x :: xs => stringifyJson x ++ "," ++ stringifyArr xs

def stringifyMembers : List (String × JVal) → String
  | [] => ""
  | [(k, v)] => quoteString k ++ ":" ++ stringifyJson v
  | (k, v) :: kvs => quoteString k ++ ":" ++ stringifyJson v ++ "," ++ stringifyMembers kvs
end

/-! ### Flat records and `flattenObject` (App.jsx 252-298) -/

/-- A flat record is a JS object: an association list without duplicate
keys, every write going through `recordSet`. -/
abbrev FlatRecord : Type := List (String × JVal)

/-- JS property write `r[k] = v`: overwrite in place when the key exists,
append otherwise. -/
def recordSet (r : List (String × JVal)) (k : String) (v : JVal) : List (String × JVal) :=
  match r with
  | [] => [(k, v)]
  | (k2, v2) :: rest => if k2 = k then (k, v) :: rest else (k2, v2) :: recordSet rest k v

/-- JS property read `r[k]` (objects have no duplicate keys, so the first
match is the value). -/
def recordGet (r : List (String × JVal)) (k : String) : Option JVal :=
  match r with
  | [] => none
  | (k2, v2) :: rest => if k2 = k then some v2 else recordGet rest k

mutual
/-- App.jsx 252-298.  `result` is threaded through the recursion in the
order the source mutates it. -/
def flattenObject (opts : ProcessingOptions) (v : JVal) (pfx : String)
    (result : List (String × JVal)) (depth : Nat) : List (String × JVal) :=
  if opts.maxDepth < depth then recordSet result (stripDot pfx) (.str (stringifyJson v))
  else match v with
  | .arr xs =>
      if opts.preserveArrays then recordSet result (stripDot pfx) (.arr xs)
      else if xs.isEmpty then recordSet result (stripDot pfx) (.arr [])
      else if (xs.headD .null).isObjLike then flattenArrItems opts xs 0 pfx result depth
      else recordSet result (stripDot pfx) (.arr xs)
  | .obj kvs => flattenMembers opts kvs pfx result depth
  | w => recordSet result (stripDot pfx) w

/-- The array-of-objects branch of App.jsx 275-278: every element is
flattened under the indexed path `pfx + index + "."`. -/
def flattenArrItems (opts : ProcessingOptions) (xs : List JVal) (index : Nat) (pfx : String)
    (result : List (String × JVal)) (depth : Nat) : List (String × JVal) :=
  match xs with
  | [] => result
  | x :: rest =>
      flattenArrItems opts rest (index + 1) pfx
        (flattenObject opts x (pfx ++ toString index ++ ".") result (depth + 1)) depth

/-- The object branch of App.jsx 287-295. -/
def flattenMembers (opts : ProcessingOptions) (kvs : List (String × JVal)) (pfx : String)
    (result : List (String × JVal)) (depth : Nat) : List (String × JVal) :=
  match kvs with
  | [] => result
  | (k, v) :: rest =>
      flattenMembers opts rest pfx
        (if v.isObjLike ∧ opts.flattenNested
         then flattenObject opts v (pfx ++ k ++ ".") result (depth + 1)
         else recordSet result (pfx ++ k) v) depth
end

/-! ### Schema inference (App.jsx 540-578) -/

/-- The runtime type tag of App.jsx 555-561: `null`, `Array.isArray`,
then JS `typeof`. -/
def typeTag : JVal → String
  | .null => "null"
  | .arr _ => "array"
  | .bool _ => "boolean"
  | .num _ => "number"
  | .str _ => "string"
  | .obj _ => "object"

/-- All keys over all records in first-seen order (App.jsx 543-546,
a JS `Set` filled by `Object.keys`). -/
def allKeysOf (records : List FlatRecord) : List String :=
  records.foldl (fun acc r => r.foldl (fun a kv => addUnique a kv.1) acc) []

/-- The set of type tags observed for `key` (App.jsx 550-563). -/
def typesFor (records : List FlatRecord) (key : String) : List String :=
  records.foldl
    (fun acc r =>
      match recordGet r key with
      | some v => addUnique acc (typeTag v)
      | none => acc)
    []

/-- The tie-break of App.jsx 565-577: one observed type wins, otherwise
`string`, then `number`, then `mixed`; no observation gives `unknown`. -/
def schemaFor (types : List String) : String :=
  match types with
  | [] => "unknown"
  | [t] => t
  | ts => if "string" ∈ ts then "string" else if "number" ∈ ts then "number" else "mixed"

/-- The schema computed at App.jsx 540-578 for a non-empty record list
with `detectSchemas` on. -/
def inferSchema (records : List FlatRecord) : List (String × String) :=
  (allKeysOf records).map (fun key => (key, schemaFor (typesFor records key)))

/-! ### Entries and the per-document pipeline (App.jsx 301-424) -/

/-- A processed entry (the object built at App.jsx 342-352 / 402-412).
`formattedJson` is kept as the parsed value: the source stores its
serialisation and re-parses it at merge time, a round trip.  For a
failed entry the source stores the raw unparseable text; failed entries
never reach the merge path that re-parses, so `formattedJson` is `.null`
there. -/
structure Entry where
  id : String
  fileName : String
  formattedJson : JVal
  error : Option String
  fields : List String
  status : String
  timestamp : String
deriving Repr

/-- The result record of `correctJsonSyntax` (App.jsx 124-171).  The
source signals the aggressive stage through its advisory `error`
message; the spec names that flag `usedAggressiveRepair`, recorded here
as an explicit field. -/
structure RepairResult where
  corrected : String
  error : Option String
  usedAggressiveRepair : Bool
deriving Repr, DecidableEq

/-- App.jsx 124-171.  `aggr` models the `eval`-based stage 3, which runs
the host's JavaScript evaluator on the raw text: a foreign function of
the embedding, `none` meaning that evaluation threw. -/
def correctJsonSyntax (aggr : String → Option JVal) (jsonStr : String) : RepairResult :=
  match parseJsonText jsonStr with
  | .ok _ => { corrected := jsonStr, error := none, usedAggressiveRepair := false }
  | .error errorMessage =>
      let corrected := applyFixes jsonStr
      match parseJsonText corrected with
      | .ok _ => { corrected := corrected, error := none, usedAggressiveRepair := false }
      | .error _ =>
          match aggr jsonStr with
          | some obj =>
              { corrected := stringifyJson obj,
                error := some "Used aggressive correction. Verify the result!",
                usedAggressiveRepair := true }
          | none =>
              { corrected := jsonStr,
                error := some ("Could not fix JSON. Original error: " ++ errorMessage),
                usedAggressiveRepair := false }

/-- The entry built by one run of `processJsonText` (App.jsx 321-418)
on non-blank input: repair, parse, optionally format, extract fields
(note: with the extractor's *default* ceiling 3, line 339 passes no
`maxDepth`), or an error entry when the parse fails.  `fileName`, `ts`
and `id` model the caller-supplied name and the wall clock. -/
def buildEntry (aggr : String → Option JVal) (opts : ProcessingOptions)
    (text fileName ts id : String) : Entry :=
  let rep := correctJsonSyntax aggr text
  match parseJsonText rep.corrected with
  | .error msg =>
      { id := id, fileName := fileName, formattedJson := .null,
        error := some ("Failed to parse JSON: " ++ msg), fields := [],
        status := "error", timestamp := ts }
  | .ok parsedJson =>
      let formattedJson := if opts.autoFormat then formatJsonStructure opts parsedJson else parsedJson
      { id := id, fileName := fileName, formattedJson := formattedJson,
        error := rep.error,
        fields := extractFieldsFromJson opts formattedJson "" 0 3,
        status := if rep.error.isSome then "warning" else "processed",
        timestamp := ts }

/-- App.jsx 301-305: blank input is rejected before any processing. -/
def processJsonText (aggr : String → Option JVal) (opts : ProcessingOptions)
    (text fileName ts id : String) : Option Entry :=
  if (text.data.dropWhile isSpaceChar).isEmpty then none
  else some (buildEntry aggr opts text fileName ts id)

/-! ### The merge (App.jsx 480-607) -/

/-- The dataset object of App.jsx 581-588 (the wall-clock `id` and
`timestamp` fields are environment values, outside the model). -/
structure MergedDataset where
  name : String
  records : List FlatRecord
  fields : List String
  schema : List (String × String)

/-- The metadata injection of App.jsx 518-520 / 529-531: reserved keys
written last, overwriting same-named user fields in place. -/
def injectMeta (e : Entry) (r : List (String × JVal)) : List (String × JVal) :=
  recordSet (recordSet r "_source" (.str e.fileName)) "_timestamp" (.str e.timestamp)

/-- One record per element of a top-level array (App.jsx 511-522).
Without `flattenNested` an object element is taken verbatim and an array
element contributes its indexed entries (JS arrays take property writes);
a primitive element makes the strict-mode property write
`record._source = ...` throw, which the per-entry `catch` at line 534
turns into a logged error: the remaining elements produce no records. -/
def arrayElementRecords (opts : ProcessingOptions) (e : Entry) : List JVal → List FlatRecord
  | [] => []
  | item :: rest =>
      if opts.flattenNested then
        injectMeta e (flattenObject opts item "" [] 0) :: arrayElementRecords opts e rest
      else
        match item with
        | .obj kvs => injectMeta e kvs :: arrayElementRecords opts e rest
        | .arr xs => injectMeta e ((xs.enum.map fun p => (toString p.1, p.2)))
            :: arrayElementRecords opts e rest
        | _ => []

/-- The records contributed by one entry (App.jsx 506-537).  A top-level
non-array value becomes a single record; without `flattenNested` a
primitive top-level value throws on the metadata write and the entry
contributes nothing (logged per-entry error). -/
def entryRecords (opts : ProcessingOptions) (e : Entry) : List FlatRecord :=
  match e.formattedJson with
  | .arr items => arrayElementRecords opts e items
  | v =>
      if opts.flattenNested then [injectMeta e (flattenObject opts v "" [] 0)]
      else
        match v with
        | .obj kvs => [injectMeta e kvs]
        | _ => []

/-- App.jsx 480-607.  `selected` is the id set of `selectedEntries`;
entries with `status = "error"` are excluded (line 489); `fields` is the
union of the *entries'* stored field lists (lines 497-501), not of the
record keys; the schema is inferred only with `detectSchemas` on and at
least one record (line 541). -/
def mergeSelectedEntries (opts : ProcessingOptions) (selected : List String)
    (processedEntries : List Entry) : Except String MergedDataset :=
  if selected.isEmpty then .error "Please select entries to merge"
  else
    let entriesToMerge := processedEntries.filter
      (fun e => decide (e.id ∈ selected) && decide (e.status ≠ "error"))
    if entriesToMerge.isEmpty then .error "No valid entries selected for merging"
    else
      let allFields := entriesToMerge.foldl (fun acc e => e.fields.foldl addUnique acc) []
      let records := entriesToMerge.foldl (fun acc e => acc ++ entryRecords opts e) []
      let schema :=
        if opts.detectSchemas ∧ ¬ records.isEmpty then inferSchema records else []
      .ok { name := "Dataset from " ++ toString entriesToMerge.length ++ " files",
            records := records, fields := allFields, schema := schema }

/-! ### Reachability of field paths (for the claim about the extractor)

A returned path is sound when it renders some chain of object keys and
array element hops inside the value; the hop count is the quantity the
depth ceiling bounds. -/

/-- Join path segments with the `.` separator (the inverse reading of the
prefix concatenation `prefix + key + "."` of the extractor). -/
def joinDots : List String → String
  | [] => ""
  | [s] => s
  | s :: rest => s ++ "." ++ joinDots rest

/-- The prefix string that a chain of key segments denotes: empty for no
segments, otherwise the joined segments followed by the trailing dot the
extractor appends. -/
def preOf : List String → String
  | [] => ""
  | segs => joinDots segs ++ "."

/-- `Reach v segs d`: starting from `v`, following the object keys listed
in `segs` (descending into array elements freely) reaches some position
in `d` hops, where both a key step and an array-element step count as
one hop, as in the `depth + 1` recursions of the extractor. -/
inductive Reach : JVal → List String → Nat → Prop where
  | stop (v : JVal) : Reach v [] 0
  | key {kvs : List (String × JVal)} {k : String} {v : JVal} {segs : List String} {d : Nat} :
      (k, v) ∈ kvs → Reach v segs d → Reach (.obj kvs) (k :: segs) (d + 1)
  | elem {xs : List JVal} {x : JVal} {segs : List String} {d : Nat} :
      x ∈ xs → Reach x segs d → Reach (.arr xs) segs (d + 1)

/-- Keys of one object level are pairwise distinct (JS objects cannot
carry duplicate keys). -/
def keysOk : List (String × JVal) → Bool
  | [] => true
  | (k, _) :: rest => !(rest.any (·.1 = k)) && keysOk rest

mutual
/-- Well-formedness for duplicate-free extraction: no object key
anywhere in the value contains the `.` separator, and every object's
keys are pairwise distinct. -/
def cleanKeys : JVal → Bool
  | .null => true
  | .bool _ => true
  | .num _ => true
  | .str _ => true
  | .arr xs => cleanKeysArr xs
  | .obj kvs => keysOk kvs && cleanKeysMembers kvs

def cleanKeysArr : List JVal → Bool
  | [] => true
  | x :: xs => cleanKeys x && cleanKeysArr xs

def cleanKeysMembers : List (String × JVal) → Bool
  | [] => true
  | (k, v) :: rest => !(k.data.contains '.') && cleanKeys v && cleanKeysMembers rest
end

/-! ### Concrete pipeline runs used by the scenario claims -/

/-- An aggressive evaluator that always fails (models `eval` throwing). -/
def aggrNone : String → Option JVal := fun _ => none

/-- Default options with the `maxDepth` slider moved to 0. -/
def optsD0 : ProcessingOptions := { defaultOptions with maxDepth := 0 }

/-- The pipeline run on `{"a":{"b":1}}` with `maxDepth = 0`. -/
def entryNested : Entry :=
  buildEntry aggrNone optsD0 "\x7b\"a\":\x7b\"b\":1\x7d\x7d" "nested.json" "t5" "id5"

/-- The pipeline run on `{"a":1,"b":{"c":2}}` with default options. -/
def entryC2a : Entry :=
  buildEntry aggrNone defaultOptions "\x7b\"a\":1,\"b\":\x7b\"c\":2\x7d\x7d" "one.json" "t1" "id1"

/-- The pipeline run on `{"a":3,"b":{"c":4}}` with default options. -/
def entryC2b : Entry :=
  buildEntry aggrNone defaultOptions "\x7b\"a\":3,\"b\":\x7b\"c\":4\x7d\x7d" "two.json" "t2" "id2"

/-- The pipeline run on `{"a":1}` with default options. -/
def entryFlat : Entry :=
  buildEntry aggrNone defaultOptions "\x7b\"a\":1\x7d" "c1.json" "t3" "id3"

/-- The pipeline run on the scalar array `[1,2]` with default options. -/
def entryScalarArr : Entry :=
  buildEntry aggrNone defaultOptions "[1,2]" "arr.json" "t4" "id4"

/-- The `fields` component of a merge result (empty on merge failure);
a projection used to state facts about one component of a merge. -/
def mergedFieldsOf (x : Except String MergedDataset) : List String :=
  match x with
  | .ok d => d.fields
  | .error _ => []

/-! ## Generic helper lemmas -/

theorem strData_append (a b : String) : (a ++ b).data = a.data ++ b.data := rfl

theorem strLength_data (s : String) : s.length = s.data.length := rfl

theorem strTake_data (n : Nat) (s : String) : (strTake n s).data = s.data.take n := rfl

theorem strExt {a b : String} (h : a.data = b.data) : a = b := by
  cases a; cases b; exact congrArg String.mk h

theorem map_eq_self_of {α : Type} (f : α → α) (l : List α) (h : ∀ x ∈ l, f x = x) :
    l.map f = l := by
  induction l with
  | nil => rfl
  | cons x t ih =>
      rw [List.map, h x (List.mem_cons_self x t),
        ih (fun y hy => h y (List.mem_cons_of_mem x hy))]

/-- Strong induction over `JVal` with elementwise hypotheses for arrays
and objects. -/
theorem JVal.indOn {P : JVal → Prop} (hnull : P .null) (hbool : ∀ b, P (.bool b))
    (hnum : ∀ n, P (.num n)) (hstr : ∀ s, P (.str s))
    (harr : ∀ xs, (∀ x ∈ xs, P x) → P (.arr xs))
    (hobj : ∀ kvs, (∀ kv ∈ kvs, P kv.2) → P (.obj kvs)) (v : JVal) : P v := by
  have key : ∀ n (w : JVal), sizeOf w ≤ n → P w := by
    intro n
    induction n with
    | zero => intro w hw; exfalso; cases w <;> simp_arith at hw
    | succ n ih =>
      intro w hw
      cases w with
      | null => exact hnull
      | bool b => exact hbool b
      | num m => exact hnum m
      | str s => exact hstr s
      | arr xs =>
          refine harr xs (fun x hx => ih x ?_)
          have h1 := List.sizeOf_lt_of_mem hx
          simp_arith at hw
          omega
      | obj kvs =>
          refine hobj kvs (fun kv hkv => ih kv.2 ?_)
          have h1 := List.sizeOf_lt_of_mem hkv
          have h2 : sizeOf kv.2 < sizeOf kv := by
            obtain ⟨k, v2⟩ := kv
            simp_arith
          simp_arith at hw
          omega
  exact key (sizeOf v) v le_rfl

/-! ## Facts about the structure formatter, leading to C8 -/

theorem charListLe_total : ∀ a b : List Char, charListLe a b = true ∨ charListLe b a = true
  | [], _ => Or.inl rfl
  | _ :: _, [] => Or.inr rfl
  | a :: as, b :: bs => by
      by_cases h1 : a < b
      · left
        simp [charListLe, if_pos h1]
      · by_cases h2 : b < a
        · right
          simp [charListLe, if_pos h2]
        · rcases charListLe_total as bs with h | h
          · left
            simp [charListLe, if_neg h1, if_neg h2, h]
          · right
            simp [charListLe, if_neg h1, if_neg h2, h]

theorem charListLe_trans : ∀ a b c : List Char, charListLe a b = true →
    charListLe b c = true → charListLe a c = true
  | [], _, _, _, _ => rfl
  | _ :: _, [], _, h1, _ => by simp [charListLe] at h1
  | _ :: _, _ :: _, [], _, h2 => by simp [charListLe] at h2
  | a :: as, b :: bs, c :: cs, h1, h2 => by
      simp only [charListLe] at h1 h2 ⊢
      by_cases hab : a < b
      · by_cases hbc : b < c
        · rw [if_pos (lt_trans hab hbc)]
        · by_cases hcb : c < b
          · rw [if_neg hbc, if_pos hcb] at h2
            exact absurd h2 (by simp)
          · have hbc2 : b = c := le_antisymm (not_lt.mp hcb) (not_lt.mp hbc)
            subst hbc2
            rw [if_pos hab]
      · by_cases hba : b < a
        · rw [if_neg hab, if_pos hba] at h1
          exact absurd h1 (by simp)
        · have hab2 : a = b := le_antisymm (not_lt.mp hba) (not_lt.mp hab)
          subst hab2
          rw [if_neg hab, if_neg hba] at h1
          by_cases hac : a < c
          · rw [if_pos hac]
          · by_cases hca : c < a
            · rw [if_neg hac, if_pos hca] at h2
              exact absurd h2 (by simp)
            · rw [if_neg hac, if_neg hca] at h2 ⊢
              exact charListLe_trans as bs cs h1 h2

instance : IsTotal (String × JVal) keyLE := ⟨fun a b => charListLe_total a.1.data b.1.data⟩

instance : IsTrans (String × JVal) keyLE :=
  ⟨fun _ _ _ h1 h2 => charListLe_trans _ _ _ h1 h2⟩

theorem truncateValue_isObjLike (opts : ProcessingOptions) (v : JVal) :
    (truncateValue opts v).isObjLike = v.isObjLike := by
  cases v with
  | str s =>
      simp only [truncateValue]
      split <;> rfl
  | null => rfl
  | bool b => rfl
  | num n => rfl
  | arr xs => rfl
  | obj kvs => rfl

theorem formatJsonStructure_isObjLike (opts : ProcessingOptions) (v : JVal) :
    (formatJsonStructure opts v).isObjLike = v.isObjLike := by
  cases v <;> rfl

theorem truncateValue_idem (opts : ProcessingOptions) (v : JVal) :
    truncateValue opts (truncateValue opts v) = truncateValue opts v := by
  cases v with
  | str s =>
      by_cases h : opts.trimLongValues ∧ opts.maxValueLength < s.length
      · have hdata : (strTake opts.maxValueLength s ++ "...").data
            = s.data.take opts.maxValueLength ++ ['.', '.', '.'] := rfl
        have h2 : opts.maxValueLength < s.data.length := by
          rw [← strLength_data]
          exact h.2
        have hl : (s.data.take opts.maxValueLength).length = opts.maxValueLength := by
          rw [List.length_take, Nat.min_eq_left (Nat.le_of_lt h2)]
        have hlen : (strTake opts.maxValueLength s ++ "...").length
            = opts.maxValueLength + 3 := by
          rw [strLength_data, hdata, List.length_append, hl]
          rfl
        have htk : strTake opts.maxValueLength (strTake opts.maxValueLength s ++ "...")
            = strTake opts.maxValueLength s := by
          apply strExt
          rw [strTake_data, hdata, strTake_data]
          have hleft := List.take_left (s.data.take opts.maxValueLength) ['.', '.', '.']
          rw [hl] at hleft
          exact hleft
        simp only [truncateValue, if_pos h]
        rw [if_pos ⟨h.1, by rw [hlen]; omega⟩, htk]
      · simp only [truncateValue, if_neg h]
  | null => rfl
  | bool b => rfl
  | num n => rfl
  | arr xs => rfl
  | obj kvs => rfl

theorem formatJsonStructure_arr (opts : ProcessingOptions) (xs : List JVal) :
    formatJsonStructure opts (.arr xs) = .arr (formatArr opts xs) := rfl

theorem formatJsonStructure_obj (opts : ProcessingOptions) (kvs : List (String × JVal)) :
    formatJsonStructure opts (.obj kvs) = .obj (sortKvs (formatMembers opts kvs)) := rfl

theorem formatArr_eq_map (opts : ProcessingOptions) (xs : List JVal) :
    formatArr opts xs = xs.map (formatJsonStructure opts) := by
  induction xs with
  | nil => rfl
  | cons x t ih => simp only [formatArr, List.map, ih]

theorem formatMembers_eq_map (opts : ProcessingOptions) (l : List (String × JVal)) :
    formatMembers opts l = l.map (fun kv => (kv.1, formatVal opts kv.2)) := by
  induction l with
  | nil => rfl
  | cons kv t ih =>
      obtain ⟨k, v⟩ := kv
      simp only [formatMembers, List.map, ih, formatVal]

theorem orderedInsert_map_keyLE (g : (String × JVal) → (String × JVal))
    (hg : ∀ a, (g a).1 = a.1) (a : String × JVal) (l : List (String × JVal)) :
    List.orderedInsert keyLE (g a) (l.map g) = (List.orderedInsert keyLE a l).map g := by
  induction l with
  | nil => rfl
  | cons b t ih =>
      have hiff : keyLE (g a) (g b) ↔ keyLE a b := by
        unfold keyLE
        rw [hg a, hg b]
      simp only [List.map, List.orderedInsert]
      by_cases h : keyLE a b
      · rw [if_pos (hiff.mpr h), if_pos h]
        rfl
      · rw [if_neg (fun hc => h (hiff.mp hc)), if_neg h]
        simp only [List.map, ih]

theorem insertionSort_map_keyLE (g : (String × JVal) → (String × JVal))
    (hg : ∀ a, (g a).1 = a.1) (l : List (String × JVal)) :
    List.insertionSort keyLE (l.map g) = (List.insertionSort keyLE l).map g := by
  induction l with
  | nil => rfl
  | cons b t ih => simp only [List.map, List.insertionSort, ih, orderedInsert_map_keyLE g hg]

/-- Faithfulness of the member-processing order in `formatJsonStructure`:
processing the members of an object and then sorting them by key equals
sorting first and then processing, which is the literal order of App.jsx
230-246 (keys sorted, then each member processed). -/
theorem formatMembers_sortKvs (opts : ProcessingOptions) (l : List (String × JVal)) :
    formatMembers opts (sortKvs l) = sortKvs (formatMembers opts l) := by
  rw [formatMembers_eq_map, formatMembers_eq_map]
  unfold sortKvs
  rw [insertionSort_map_keyLE (fun kv => (kv.1, formatVal opts kv.2)) (fun _ => rfl)]

theorem formatVal_stable (opts : ProcessingOptions) (v : JVal)
    (ih : formatJsonStructure opts (formatJsonStructure opts v) = formatJsonStructure opts v) :
    formatVal opts (formatVal opts v) = formatVal opts v := by
  by_cases h : v.isObjLike = true
  · have h2 : (formatJsonStructure opts v).isObjLike = true := by
      rw [formatJsonStructure_isObjLike, h]
    simp only [formatVal, if_pos h, if_pos h2, ih]
  · have h2 : (truncateValue opts v).isObjLike = true ↔ False := by
      rw [truncateValue_isObjLike]
      simp [h]
    simp only [formatVal, if_neg h, if_neg (h2.mp), truncateValue_idem]

/-- C8: the structure formatter is idempotent for every parsed value and
every truncation setting: `format(format(v)) = format(v)`, including
when long-string truncation applies (App.jsx 220-249). -/
theorem formatJsonStructure_idempotent (opts : ProcessingOptions) (v : JVal) :
    formatJsonStructure opts (formatJsonStructure opts v) = formatJsonStructure opts v := by
  induction v using JVal.indOn with
  | hnull => rfl
  | hbool b => rfl
  | hnum n => rfl
  | hstr s => rfl
  | harr xs ih =>
      rw [formatJsonStructure_arr, formatJsonStructure_arr, formatArr_eq_map, formatArr_eq_map,
        List.map_map]
      exact congrArg JVal.arr (List.map_congr_left (fun x hx => ih x hx))
  | hobj kvs ih =>
      rw [formatJsonStructure_obj, formatJsonStructure_obj]
      have hstable : formatMembers opts (sortKvs (formatMembers opts kvs))
          = sortKvs (formatMembers opts kvs) := by
        rw [formatMembers_eq_map]
        apply map_eq_self_of
        intro kv hkv
        have hmem : kv ∈ formatMembers opts kvs :=
          ((List.perm_insertionSort keyLE (formatMembers opts kvs)).mem_iff).mp hkv
        rw [formatMembers_eq_map] at hmem
        obtain ⟨a, ha, rfl⟩ := List.mem_map.mp hmem
        have := formatVal_stable opts a.2 (ih a ha)
        simp only [formatVal] at this ⊢
        rw [this]
      rw [hstable]
      exact congrArg JVal.obj
        ((List.sorted_insertionSort keyLE (formatMembers opts kvs)).insertionSort_eq)

/-! ## Claims about the syntax repairer -/

/-- C5: for every string `t` that already parses as valid JSON, the
repairer returns `t` character-for-character unchanged, with no error
and `usedAggressiveRepair = false` (App.jsx 124-128: the direct-parse
branch returns the input itself). -/
theorem repair_valid_input_unchanged (aggr : String → Option JVal) (t : String) (v : JVal)
    (h : parseJsonText t = .ok v) :
    correctJsonSyntax aggr t =
      { corrected := t, error := none, usedAggressiveRepair := false } := by
  unfold correctJsonSyntax
  rw [h]

/-- Witness for C5 at the concrete valid input `[1, 2]`. -/
theorem repair_valid_input_unchanged_witness :
    correctJsonSyntax (fun _ => none) "[1, 2]" =
      { corrected := "[1, 2]", error := none, usedAggressiveRepair := false } :=
  repair_valid_input_unchanged (fun _ => none) "[1, 2]" (.arr [.num 1, .num 2]) rfl

/-- C6: on the input `{name: 'Bob', age: 30,}` the stage-2 textual
rewrites produce exactly `{"name": "Bob", "age": 30}` (key quoted,
single quotes doubled, trailing comma removed), which parses, so the
aggressive stage is never consulted and `usedAggressiveRepair = false`
— stated for an arbitrary aggressive evaluator `aggr`. -/
theorem repair_stage2_scenario (aggr : String → Option JVal) :
    correctJsonSyntax aggr "\x7bname: 'Bob', age: 30,\x7d" =
      { corrected := "\x7b\"name\": \"Bob\", \"age\": 30\x7d", error := none,
        usedAggressiveRepair := false } := rfl

/-- C7: when the direct parse fails, the rewritten text still fails to
parse and the aggressive evaluator also fails, the repairer returns the
original text unchanged with an error message embedding the original
parse failure reason, and `usedAggressiveRepair = false` (App.jsx
163-168).  The function is total by construction: every input yields a
result record. -/
theorem repair_all_stages_fail (aggr : String → Option JVal) (t msg msg2 : String)
    (h1 : parseJsonText t = .error msg)
    (h2 : parseJsonText (applyFixes t) = .error msg2)
    (h3 : aggr t = none) :
    correctJsonSyntax aggr t =
      { corrected := t, error := some ("Could not fix JSON. Original error: " ++ msg),
        usedAggressiveRepair := false } := by
  unfold correctJsonSyntax
  rw [h1]
  simp only [h2, h3]

/-- Witness for C7 at the concrete unrepairable input `{`. -/
theorem repair_all_stages_fail_witness :
    correctJsonSyntax (fun _ => none) "\x7b" =
      { corrected := "\x7b",
        error := some "Could not fix JSON. Original error: expected string key",
        usedAggressiveRepair := false } :=
  repair_all_stages_fail (fun _ => none) "\x7b" "expected string key" "expected string key"
    rfl rfl rfl

/-! ## Claims about the depth ceilings (C3) -/

/-- C3 (amended): `processingOptions.maxDepth` is the flattener's
recursion ceiling, and both functions cut recursion off once `depth`
exceeds their own ceiling — but the pipeline invokes
`extractFieldsFromJson` with the function's *default* ceiling 3 (App.jsx
339 passes no `maxDepth`), so the extractor does not share
`processingOptions.maxDepth`. -/
theorem maxDepth_ceilings (opts : ProcessingOptions) :
    (∀ (v : JVal) (pfx : String) (res : List (String × JVal)) (depth : Nat),
      opts.maxDepth < depth →
      flattenObject opts v pfx res depth = recordSet res (stripDot pfx) (.str (stringifyJson v)))
    ∧ (∀ (v : JVal) (pfx : String) (depth maxD : Nat), maxD < depth →
      extractFieldsFromJson opts v pfx depth maxD = [stripDot pfx])
    ∧ (∀ (aggr : String → Option JVal) (text fileName ts id : String) (pj : JVal),
        parseJsonText (correctJsonSyntax aggr text).corrected = .ok pj →
        (buildEntry aggr opts text fileName ts id).fields
          = extractFieldsFromJson opts
              (if opts.autoFormat then formatJsonStructure opts pj else pj) "" 0 3) := by
  refine ⟨fun v pfx res depth hd => ?_, fun v pfx depth maxD hd => ?_,
    fun aggr text fileName ts id pj h => ?_⟩
  · rw [flattenObject.eq_def, if_pos hd]
  · rw [extractFieldsFromJson.eq_def, if_pos hd]
  · unfold buildEntry
    dsimp only
    rw [h]

/-- Witness for C3 at `maxDepth = 0` and the document `{"a":{"b":1}}`. -/
theorem maxDepth_ceilings_witness :
    flattenObject optsD0 (.obj [("b", .num 1)]) "a." [] 1
      = recordSet [] (stripDot "a.") (.str (stringifyJson (.obj [("b", .num 1)])))
    ∧ extractFieldsFromJson optsD0 (.num 5) "a." 1 0 = [stripDot "a."]
    ∧ entryNested.fields = extractFieldsFromJson optsD0
        (if optsD0.autoFormat then formatJsonStructure optsD0 (.obj [("a", .obj [("b", .num 1)])])
         else .obj [("a", .obj [("b", .num 1)])]) "" 0 3 :=
  ⟨(maxDepth_ceilings optsD0).1 (.obj [("b", .num 1)]) "a." [] 1 (by decide),
   (maxDepth_ceilings optsD0).2.1 (.num 5) "a." 1 0 (by decide),
   (maxDepth_ceilings optsD0).2.2 aggrNone "\x7b\"a\":\x7b\"b\":1\x7d\x7d" "nested.json" "t5"
     "id5" (.obj [("a", .obj [("b", .num 1)])]) rfl⟩

/-- C3 counterexample: with `processingOptions.maxDepth = 0` the pipeline
run on `{"a":{"b":1}}` stores the field path `a.b`, which recursion cut
off at `depth > 0` could never emit — the cut-at-0 extraction yields
only `a` — so the extractor does not use `processingOptions.maxDepth`
as its ceiling. -/
theorem maxDepth_not_shared_counterexample :
    entryNested.fields = ["a.b"]
    ∧ extractFieldsFromJson optsD0 entryNested.formattedJson "" 0 optsD0.maxDepth = ["a"]
    ∧ optsD0.maxDepth = 0 := ⟨rfl, rfl, rfl⟩

/-! ## Claims about scalar array elements in the merge (C4) -/

theorem flattenObject_scalar (opts : ProcessingOptions) (v : JVal) (hv : v.isObjLike = false) :
    flattenObject opts v "" [] 0 = [("", v)] := by
  rw [flattenObject.eq_def, if_neg (Nat.not_lt_zero _)]
  cases v with
  | arr xs => simp [JVal.isObjLike] at hv
  | obj kvs => simp [JVal.isObjLike] at hv
  | null => rfl
  | bool b => rfl
  | num n => rfl
  | str s => rfl

theorem arrayElementRecords_scalars (opts : ProcessingOptions) (e : Entry) (items : List JVal)
    (hf : opts.flattenNested = true) (hs : ∀ it ∈ items, it.isObjLike = false) :
    arrayElementRecords opts e items = items.map (fun it =>
      [("", it), ("_source", .str e.fileName), ("_timestamp", .str e.timestamp)]) := by
  induction items with
  | nil => rfl
  | cons it rest ih =>
      simp only [arrayElementRecords, if_pos hf, List.map]
      rw [flattenObject_scalar opts it (hs it (List.mem_cons_self it rest)),
        ih (fun x hx => hs x (List.mem_cons_of_mem it hx))]
      rfl

/-- C4 (amended): with `flattenNested` enabled (the default), a selected
entry whose top-level value is an array of scalar (non-object-like)
elements is *not* rejected: each element becomes one record storing the
scalar under the empty-string key (the flattener writes it at the
stripped empty prefix), plus the injected reserved keys, with no
per-entry error.  (Only with `flattenNested` disabled does the
strict-mode metadata write on a primitive throw, skipping the entry's
remaining elements via the logged per-entry catch.) -/
theorem merge_keeps_scalar_array_elements (opts : ProcessingOptions) (e : Entry)
    (items : List JVal) (hf : opts.flattenNested = true) (hi : e.formattedJson = .arr items)
    (hs : ∀ it ∈ items, it.isObjLike = false) :
    entryRecords opts e = items.map (fun it =>
      [("", it), ("_source", .str e.fileName), ("_timestamp", .str e.timestamp)]) := by
  unfold entryRecords
  rw [hi]
  exact arrayElementRecords_scalars opts e items hf hs

/-- Witness for C4 at the pipeline run on `[1,2]`. -/
theorem merge_keeps_scalar_array_elements_witness :
    entryRecords defaultOptions entryScalarArr
      = [[("", .num 1), ("_source", .str "arr.json"), ("_timestamp", .str "t4")],
         [("", .num 2), ("_source", .str "arr.json"), ("_timestamp", .str "t4")]] :=
  merge_keeps_scalar_array_elements defaultOptions entryScalarArr [.num 1, .num 2]
    rfl rfl (by decide)

/-- C4 counterexample: merging the entry built from `[1,2]` under the
default options produces one record per scalar element (two records,
no element skipped) and the merge succeeds — the claim's
"no record from them" is false on the code. -/
theorem scalar_array_merge_counterexample :
    mergeSelectedEntries defaultOptions ["id4"] [entryScalarArr]
      = .ok { name := "Dataset from 1 files",
              records := [[("", .num 1), ("_source", .str "arr.json"), ("_timestamp", .str "t4")],
                          [("", .num 2), ("_source", .str "arr.json"), ("_timestamp", .str "t4")]],
              fields := [""],
              schema := [("", "number"), ("_source", "string"), ("_timestamp", "string")] } := rfl

/-! ## Facts about the merge and the inferred schema (C1, C2, C10) -/

theorem merge_ok_schema (opts : ProcessingOptions) (selected : List String)
    (entries : List Entry) (d : MergedDataset)
    (hm : mergeSelectedEntries opts selected entries = .ok d) :
    d.schema = if opts.detectSchemas ∧ ¬ d.records.isEmpty then inferSchema d.records else [] := by
  unfold mergeSelectedEntries at hm
  split at hm
  · exact absurd hm (by simp)
  · dsimp only at hm
    split at hm
    · exact absurd hm (by simp)
    · cases hm
      rfl

theorem addUnique_mem {α : Type} [DecidableEq α] (acc : List α) (a x : α) :
    x ∈ addUnique acc a ↔ x ∈ acc ∨ x = a := by
  unfold addUnique
  split
  · constructor
    · exact fun h => Or.inl h
    · rintro (h | rfl)
      · exact h
      · assumption
  · simp [List.mem_append]

theorem addUnique_ne_nil {α : Type} [DecidableEq α] (acc : List α) (a : α) :
    addUnique acc a ≠ [] := by
  unfold addUnique
  split
  · exact List.ne_nil_of_mem (by assumption)
  · simp

theorem foldl_addUnique_mem {α : Type} [DecidableEq α] (l acc : List α) (x : α) :
    x ∈ l.foldl addUnique acc ↔ x ∈ acc ∨ x ∈ l := by
  induction l generalizing acc with
  | nil => simp
  | cons a t ih =>
      rw [List.foldl_cons, ih, addUnique_mem]
      simp only [List.mem_cons]
      tauto

theorem inner_keys_foldl_mem (r : FlatRecord) (acc : List String) (k : String) :
    k ∈ r.foldl (fun a kv => addUnique a kv.1) acc ↔ k ∈ acc ∨ k ∈ r.map Prod.fst := by
  induction r generalizing acc with
  | nil => simp
  | cons kv t ih =>
      rw [List.foldl_cons, ih, addUnique_mem]
      simp only [List.map, List.mem_cons]
      tauto

theorem mem_allKeysOf_iff (records : List FlatRecord) (k : String) :
    k ∈ allKeysOf records ↔ ∃ r ∈ records, k ∈ r.map Prod.fst := by
  have haux : ∀ (rs : List FlatRecord) (acc : List String),
      k ∈ rs.foldl (fun acc r => r.foldl (fun a kv => addUnique a kv.1) acc) acc
        ↔ k ∈ acc ∨ ∃ r ∈ rs, k ∈ r.map Prod.fst := by
    intro rs
    induction rs with
    | nil => simp
    | cons r t ih =>
        intro acc
        rw [List.foldl_cons, ih, inner_keys_foldl_mem]
        simp only [List.mem_cons]
        constructor
        · rintro ((h | h) | ⟨r2, hr2, hk2⟩)
          · exact Or.inl h
          · exact Or.inr ⟨r, Or.inl rfl, h⟩
          · exact Or.inr ⟨r2, Or.inr hr2, hk2⟩
        · rintro (h | ⟨r2, (rfl | hr2), hk2⟩)
          · exact Or.inl (Or.inl h)
          · exact Or.inl (Or.inr hk2)
          · exact Or.inr ⟨r2, hr2, hk2⟩
  have := haux records []
  simpa [allKeysOf] using this

theorem schema_covers (records : List FlatRecord) (k : String)
    (h : ∃ r ∈ records, k ∈ r.map Prod.fst) : ∃ tag, (k, tag) ∈ inferSchema records :=
  ⟨schemaFor (typesFor records k),
    List.mem_map_of_mem (fun key => (key, schemaFor (typesFor records key)))
      ((mem_allKeysOf_iff records k).mpr h)⟩

/-- C1 (amended): when `detectSchemas` is enabled, every key appearing in
any record of a merged dataset (the injected reserved keys included) has
an entry in `schema` — the schema's key set is the union of the records'
keys (App.jsx 543-549).  The dataset's `fields`, by contrast, is the
union of the *entries'* stored field lists (App.jsx 497-501), which does
not include the injected reserved keys (see the counterexample). -/
theorem merge_schema_covers_record_keys (opts : ProcessingOptions) (selected : List String)
    (entries : List Entry) (d : MergedDataset) (r : FlatRecord) (kv : String × JVal)
    (hm : mergeSelectedEntries opts selected entries = .ok d)
    (hdet : opts.detectSchemas = true)
    (hr : r ∈ d.records) (hkv : kv ∈ r) :
    ∃ tag, (kv.1, tag) ∈ d.schema := by
  have hs := merge_ok_schema opts selected entries d hm
  have hne : ¬ d.records.isEmpty = true := by
    cases hrec : d.records with
    | nil => rw [hrec] at hr; exact absurd hr (by simp)
    | cons a t => simp
  rw [if_pos ⟨hdet, hne⟩] at hs
  rw [hs]
  exact schema_covers d.records kv.1 ⟨r, hr, List.mem_map_of_mem Prod.fst hkv⟩

/-- Witness for C1 at the merge of the entry built from `{"a":1}`: the
injected `_source` key of the only record has a schema entry. -/
theorem merge_schema_covers_record_keys_witness :
    ∃ tag, ("_source", tag) ∈
      ({ name := "Dataset from 1 files",
         records := [[("a", JVal.num 1), ("_source", JVal.str "c1.json"),
                      ("_timestamp", JVal.str "t3")]],
         fields := ["a"],
         schema := [("a", "number"), ("_source", "string"), ("_timestamp", "string")] }
        : MergedDataset).schema :=
  merge_schema_covers_record_keys defaultOptions ["id3"] [entryFlat] _
    [("a", JVal.num 1), ("_source", JVal.str "c1.json"), ("_timestamp", JVal.str "t3")]
    ("_source", JVal.str "c1.json") rfl rfl (List.Mem.head _)
    (List.Mem.tail _ (List.Mem.head _))

/-- C1 counterexample: merging the single entry built from `{"a":1}`
yields a record carrying the injected key `_source`, while the dataset's
`fields` is `["a"]` — a record key absent from `fields`, refuting the
claim's first half. -/
theorem merge_fields_misses_reserved_keys_counterexample :
    mergeSelectedEntries defaultOptions ["id3"] [entryFlat]
      = .ok { name := "Dataset from 1 files",
              records := [[("a", JVal.num 1), ("_source", JVal.str "c1.json"),
                           ("_timestamp", JVal.str "t3")]],
              fields := ["a"],
              schema := [("a", "number"), ("_source", "string"), ("_timestamp", "string")] }
    ∧ "_source" ∉ (["a"] : List String) := ⟨rfl, by decide⟩

/-- C2 (amended): merging the two entries built from `{"a":1,"b":{"c":2}}`
and `{"a":3,"b":{"c":4}}` under the default options (`flattenNested` and
`preserveArrays` on) produces exactly the two claimed records and the
claimed schema, but `fields = {a, b.c}`: the injected reserved keys are
not added to `fields` (they live only in the records and the schema). -/
theorem merge_two_nested_entries :
    mergeSelectedEntries defaultOptions ["id1", "id2"] [entryC2a, entryC2b]
      = .ok { name := "Dataset from 2 files",
              records := [[("a", JVal.num 1), ("b.c", JVal.num 2),
                           ("_source", JVal.str "one.json"), ("_timestamp", JVal.str "t1")],
                          [("a", JVal.num 3), ("b.c", JVal.num 4),
                           ("_source", JVal.str "two.json"), ("_timestamp", JVal.str "t2")]],
              fields := ["a", "b.c"],
              schema := [("a", "number"), ("b.c", "number"), ("_source", "string"),
                         ("_timestamp", "string")] } := rfl

/-- C2 counterexample: in that same merge the dataset's `fields` is
exactly `["a", "b.c"]` and contains neither `_source` nor `_timestamp`,
refuting the claimed `fields = {a, b.c, _source, _timestamp}`. -/
theorem merge_two_nested_entries_counterexample :
    mergedFieldsOf (mergeSelectedEntries defaultOptions ["id1", "id2"] [entryC2a, entryC2b])
      = ["a", "b.c"]
    ∧ "_source" ∉ mergedFieldsOf
        (mergeSelectedEntries defaultOptions ["id1", "id2"] [entryC2a, entryC2b])
    ∧ "_timestamp" ∉ mergedFieldsOf
        (mergeSelectedEntries defaultOptions ["id1", "id2"] [entryC2a, entryC2b]) :=
  ⟨rfl, by decide, by decide⟩

/-! ## The zero-types-observed branch is unreachable (C10) -/

theorem typeTag_ne_unknown (v : JVal) : typeTag v ≠ "unknown" := by
  cases v <;> simp [typeTag]

theorem recordGet_some_of_mem_keys (r : FlatRecord) (k : String) (h : k ∈ r.map Prod.fst) :
    ∃ v, recordGet r k = some v := by
  induction r with
  | nil => exact absurd h (by simp)
  | cons kv t ih =>
      by_cases hk : kv.1 = k
      · exact ⟨kv.2, by obtain ⟨k2, v2⟩ := kv; simp only [recordGet, if_pos hk]⟩
      · simp only [List.map, List.mem_cons] at h
        rcases h with h | h
        · exact absurd h.symm hk
        · obtain ⟨v, hv⟩ := ih h
          exact ⟨v, by obtain ⟨k2, v2⟩ := kv; simp only [recordGet, if_neg hk, hv]⟩

theorem typesFor_mem (records : List FlatRecord) (k : String) (t : String)
    (h : t ∈ typesFor records k) : ∃ v, t = typeTag v := by
  have haux : ∀ (rs : List FlatRecord) (acc : List String),
      t ∈ rs.foldl
          (fun acc r => match recordGet r k with
            | some v => addUnique acc (typeTag v)
            | none => acc) acc
        → t ∈ acc ∨ ∃ v, t = typeTag v := by
    intro rs
    induction rs with
    | nil => exact fun acc h => Or.inl h
    | cons r rest ih =>
        intro acc h
        rw [List.foldl_cons] at h
        rcases ih _ h with h2 | h2
        · cases hg : recordGet r k with
          | some v =>
              rw [hg] at h2
              rcases (addUnique_mem acc (typeTag v) t).mp h2 with h3 | h3
              · exact Or.inl h3
              · exact Or.inr ⟨v, h3⟩
          | none => rw [hg] at h2; exact Or.inl h2
        · exact Or.inr h2
  rcases haux records [] h with h2 | h2
  · exact absurd h2 (by simp)
  · exact h2

theorem typesFor_ne_nil (records : List FlatRecord) (k : String)
    (h : ∃ r ∈ records, k ∈ r.map Prod.fst) : typesFor records k ≠ [] := by
  have hstep : ∀ (acc : List String) (r : FlatRecord), acc ≠ [] →
      (match recordGet r k with
        | some v => addUnique acc (typeTag v)
        | none => acc) ≠ [] := by
    intro acc r ha
    cases recordGet r k with
    | some v => exact addUnique_ne_nil acc (typeTag v)
    | none => exact ha
  have hfold : ∀ (rs : List FlatRecord) (acc : List String), acc ≠ [] →
      rs.foldl
        (fun acc r => match recordGet r k with
          | some v => addUnique acc (typeTag v)
          | none => acc) acc ≠ [] := by
    intro rs
    induction rs with
    | nil => exact fun acc h => h
    | cons r rest ih => exact fun acc h => ih _ (hstep acc r h)
  have hmain : ∀ (rs : List FlatRecord) (acc : List String),
      (∃ r ∈ rs, k ∈ r.map Prod.fst) →
      rs.foldl
        (fun acc r => match recordGet r k with
          | some v => addUnique acc (typeTag v)
          | none => acc) acc ≠ [] := by
    intro rs
    induction rs with
    | nil => rintro acc ⟨r, hr, _⟩; exact absurd hr (by simp)
    | cons r rest ih =>
        rintro acc ⟨r2, hr2, hk2⟩
        rw [List.foldl_cons]
        rcases List.mem_cons.mp hr2 with rfl | hr3
        · obtain ⟨v, hv⟩ := recordGet_some_of_mem_keys r2 k hk2
          apply hfold
          rw [hv]
          exact addUnique_ne_nil acc (typeTag v)
        · exact ih _ ⟨r2, hr3, hk2⟩
  exact hmain records [] h

theorem schemaFor_ne_unknown (ts : List String) (h1 : ts ≠ [])
    (h2 : ∀ t ∈ ts, t ≠ "unknown") : schemaFor ts ≠ "unknown" := by
  cases ts with
  | nil => exact absurd rfl h1
  | cons t rest =>
      cases rest with
      | nil => exact h2 t (List.mem_cons_self t [])
      | cons t2 rest2 =>
          simp only [schemaFor]
          split
          · decide
          · split
            · decide
            · decide

/-- C10: in every schema produced by a merge, no field is mapped to
`unknown`: the schema's key set is built from keys present in at least
one record, so every key's observed-type set is non-empty and the
zero-types branch of App.jsx 566-567 is unreachable. -/
theorem merge_schema_no_unknown (opts : ProcessingOptions) (selected : List String)
    (entries : List Entry) (d : MergedDataset) (k tag : String)
    (hm : mergeSelectedEntries opts selected entries = .ok d)
    (hmem : (k, tag) ∈ d.schema) : tag ≠ "unknown" := by
  have hs := merge_ok_schema opts selected entries d hm
  rw [hs] at hmem
  by_cases hc : opts.detectSchemas = true ∧ ¬ d.records.isEmpty = true
  · rw [if_pos hc] at hmem
    unfold inferSchema at hmem
    obtain ⟨k2, hk2, heq⟩ := List.mem_map.mp hmem
    obtain ⟨rfl, rfl⟩ := Prod.mk.injEq k2 (schemaFor (typesFor d.records k2)) k tag
      |>.mp heq
    have hx := (mem_allKeysOf_iff d.records k2).mp hk2
    apply schemaFor_ne_unknown
    · exact typesFor_ne_nil d.records k2 hx
    · intro t ht
      obtain ⟨v, rfl⟩ := typesFor_mem d.records k2 t ht
      exact typeTag_ne_unknown v
  · rw [if_neg hc] at hmem
    exact absurd hmem (by simp)

/-- Witness for C10 at the merge of the entry built from `{"a":1}`. -/
theorem merge_schema_no_unknown_witness : ("number" : String) ≠ "unknown" :=
  merge_schema_no_unknown defaultOptions ["id3"] [entryFlat]
    { name := "Dataset from 1 files",
      records := [[("a", JVal.num 1), ("_source", JVal.str "c1.json"),
                   ("_timestamp", JVal.str "t3")]],
      fields := ["a"],
      schema := [("a", "number"), ("_source", "string"), ("_timestamp", "string")] }
    "a" "number" rfl (List.Mem.head _)

/-! ## Path bookkeeping for the extractor (C9)

The extractor builds its prefixes as `pfx ++ key ++ "."`; the lemmas
here relate those strings to the segment lists of `joinDots`/`preOf`. -/

theorem strAppend_assoc (a b c : String) : (a ++ b) ++ c = a ++ (b ++ c) :=
  strExt (by simp [strData_append, List.append_assoc])

theorem strEmpty_append (s : String) : "" ++ s = s :=
  strExt (by simp [strData_append])

theorem joinDots_cons2 (s t : String) (rest : List String) :
    joinDots (s :: t :: rest) = s ++ "." ++ joinDots (t :: rest) := rfl

theorem preOf_cons (p : String) (ps : List String) :
    preOf (p :: ps) = joinDots (p :: ps) ++ "." := rfl

theorem joinDots_append_key : ∀ (ps : List String) (k : String),
    joinDots (ps ++ [k]) = preOf ps ++ k
  | [], k => (strEmpty_append k).symm
  | [p], k => rfl
  | p :: q :: ps, k => by
      have ih : joinDots (q :: (ps ++ [k])) = preOf (q :: ps) ++ k :=
        joinDots_append_key (q :: ps) k
      show joinDots (p :: q :: (ps ++ [k])) = preOf (p :: q :: ps) ++ k
      rw [joinDots_cons2, ih, preOf_cons, preOf_cons, joinDots_cons2]
      apply strExt
      simp [strData_append, List.append_assoc]

theorem preOf_append_key (ps : List String) (k : String) :
    preOf ps ++ k ++ "." = preOf (ps ++ [k]) := by
  cases ps with
  | nil =>
      apply strExt
      simp [preOf, joinDots, strData_append]
  | cons p ps2 =>
      show (preOf (p :: ps2) ++ k) ++ "." = preOf (p :: (ps2 ++ [k]))
      rw [← joinDots_append_key (p :: ps2) k]
      rfl

theorem strMk_data (s : String) : String.mk s.data = s := by
  cases s
  rfl

theorem stripDot_preOf : ∀ ps : List String, stripDot (preOf ps) = joinDots ps
  | [] => rfl
  | p :: ps => by
      rw [preOf_cons]
      unfold stripDot
      have hdata : (joinDots (p :: ps) ++ ".").data = (joinDots (p :: ps)).data ++ ['.'] := rfl
      rw [if_pos (by rw [hdata, List.getLast?_concat])]
      apply strExt
      rw [hdata, List.dropLast_concat]

theorem joinDots_append_cons (ps : List String) (k : String) (segs : List String) :
    joinDots (ps ++ k :: segs) = joinDots ((ps ++ [k]) ++ segs) := by
  rw [List.append_assoc, List.singleton_append]

/-! ## Soundness of the extractor's paths (towards C9) -/

theorem extract_null (opts : ProcessingOptions) (pfx : String) (depth maxD : Nat) :
    extractFieldsFromJson opts .null pfx depth maxD
      = if maxD < depth then [stripDot pfx] else [] := rfl

theorem extract_bool (opts : ProcessingOptions) (b : Bool) (pfx : String) (depth maxD : Nat) :
    extractFieldsFromJson opts (.bool b) pfx depth maxD
      = if maxD < depth then [stripDot pfx] else [stripDot pfx] := rfl

theorem extract_num (opts : ProcessingOptions) (n : Int) (pfx : String) (depth maxD : Nat) :
    extractFieldsFromJson opts (.num n) pfx depth maxD
      = if maxD < depth then [stripDot pfx] else [stripDot pfx] := rfl

theorem extract_str (opts : ProcessingOptions) (s : String) (pfx : String) (depth maxD : Nat) :
    extractFieldsFromJson opts (.str s) pfx depth maxD
      = if maxD < depth then [stripDot pfx] else [stripDot pfx] := rfl

theorem extract_arr (opts : ProcessingOptions) (xs : List JVal) (pfx : String)
    (depth maxD : Nat) :
    extractFieldsFromJson opts (.arr xs) pfx depth maxD
      = if maxD < depth then [stripDot pfx]
        else if opts.preserveArrays || xs.isEmpty then [stripDot pfx]
        else extractSamples opts 3 xs pfx depth maxD [] := rfl

theorem extract_obj (opts : ProcessingOptions) (kvs : List (String × JVal)) (pfx : String)
    (depth maxD : Nat) :
    extractFieldsFromJson opts (.obj kvs) pfx depth maxD
      = if maxD < depth then [stripDot pfx]
        else extractMembers opts kvs pfx depth maxD := rfl

theorem stripDot_mem_path {p : String} {ps : List String}
    (h : p ∈ [stripDot (preOf ps)]) : p = joinDots (ps ++ []) := by
  rw [List.mem_singleton.mp h, stripDot_preOf, List.append_nil]

theorem extractSamples_sound (opts : ProcessingOptions) (full : List JVal)
    (hSV : ∀ x ∈ full, ∀ (ps : List String) (depth maxD : Nat) (p : String),
      p ∈ extractFieldsFromJson opts x (preOf ps) depth maxD →
      ∃ segs d, p = joinDots (ps ++ segs) ∧ Reach x segs d ∧ d ≤ maxD + 1 - depth) :
    ∀ (xs : List JVal) (n : Nat), (∀ x ∈ xs, x ∈ full) →
    ∀ (ps : List String) (depth maxD : Nat), depth ≤ maxD →
    ∀ (acc : List String) (p : String),
      p ∈ extractSamples opts n xs (preOf ps) depth maxD acc →
      p ∈ acc ∨ ∃ segs d, p = joinDots (ps ++ segs) ∧ Reach (.arr full) segs d ∧
        d ≤ maxD + 1 - depth := by
  intro xs
  induction xs with
  | nil =>
      intro n _ ps depth maxD _ acc p hp
      cases n with
      | zero => exact Or.inl hp
      | succ n2 => exact Or.inl hp
  | cons x rest ih =>
      intro n hsub ps depth maxD hdep acc p hp
      cases n with
      | zero => exact Or.inl hp
      | succ n2 =>
          have hp2 : p ∈ extractSamples opts n2 rest (preOf ps) depth maxD
              (if x.isObjLike = true
               then (extractFieldsFromJson opts x (preOf ps) (depth + 1) maxD).foldl addUnique acc
               else addUnique acc (stripDot (preOf ps))) := hp
          rcases ih n2 (fun y hy => hsub y (List.mem_cons_of_mem x hy)) ps depth maxD hdep
              _ p hp2 with h | h
          · by_cases hobj : x.isObjLike = true
            · rw [if_pos hobj] at h
              rcases (foldl_addUnique_mem _ acc p).mp h with h2 | h2
              · exact Or.inl h2
              · obtain ⟨segs, d, h3, h4, h5⟩ :=
                  hSV x (hsub x (List.mem_cons_self x rest)) ps (depth + 1) maxD p h2
                refine Or.inr ⟨segs, d + 1, h3,
                  Reach.elem (hsub x (List.mem_cons_self x rest)) h4, by omega⟩
            · rw [if_neg hobj] at h
              rcases (addUnique_mem acc _ p).mp h with h2 | h2
              · exact Or.inl h2
              · refine Or.inr ⟨[], 0, ?_, Reach.stop _, by omega⟩
                rw [h2, stripDot_preOf, List.append_nil]
          · exact Or.inr h

theorem extractMembers_sound (opts : ProcessingOptions) (fullKvs : List (String × JVal))
    (hSV : ∀ kv ∈ fullKvs, ∀ (ps : List String) (depth maxD : Nat) (p : String),
      p ∈ extractFieldsFromJson opts kv.2 (preOf ps) depth maxD →
      ∃ segs d, p = joinDots (ps ++ segs) ∧ Reach kv.2 segs d ∧ d ≤ maxD + 1 - depth) :
    ∀ (kvs : List (String × JVal)), (∀ kv ∈ kvs, kv ∈ fullKvs) →
    ∀ (ps : List String) (depth maxD : Nat), depth ≤ maxD →
    ∀ (p : String), p ∈ extractMembers opts kvs (preOf ps) depth maxD →
      ∃ segs d, p = joinDots (ps ++ segs) ∧ Reach (.obj fullKvs) segs d ∧
        d ≤ maxD + 1 - depth := by
  intro kvs
  induction kvs with
  | nil =>
      intro _ ps depth maxD _ p hp
      exact absurd hp (by simp [extractMembers])
  | cons kv rest ih =>
      intro hsub ps depth maxD hdep p hp
      obtain ⟨k, v⟩ := kv
      simp only [extractMembers] at hp
      rcases List.mem_append.mp hp with h | h
      · by_cases hobj : v.isObjLike = true
        · rw [if_pos hobj, preOf_append_key] at h
          obtain ⟨segs, d, h1, h2, h3⟩ :=
            hSV (k, v) (hsub (k, v) (List.mem_cons_self (k, v) rest)) (ps ++ [k])
              (depth + 1) maxD p h
          refine ⟨k :: segs, d + 1, ?_,
            Reach.key (hsub (k, v) (List.mem_cons_self (k, v) rest)) h2, by omega⟩
          rw [h1, joinDots_append_cons]
        · rw [if_neg hobj] at h
          refine ⟨[k], 1, ?_,
            Reach.key (hsub (k, v) (List.mem_cons_self (k, v) rest)) (Reach.stop v), by omega⟩
          rw [List.mem_singleton.mp h, joinDots_append_key]
      · exact ih (fun kv2 hkv2 => hsub kv2 (List.mem_cons_of_mem (k, v) hkv2))
          ps depth maxD hdep p h

theorem extract_sound_gen (opts : ProcessingOptions) (v : JVal) :
    ∀ (ps : List String) (depth maxD : Nat) (p : String),
      p ∈ extractFieldsFromJson opts v (preOf ps) depth maxD →
      ∃ segs d, p = joinDots (ps ++ segs) ∧ Reach v segs d ∧ d ≤ maxD + 1 - depth := by
  induction v using JVal.indOn with
  | hnull =>
      intro ps depth maxD p hp
      rw [extract_null] at hp
      by_cases hd : maxD < depth
      · rw [if_pos hd] at hp
        exact ⟨[], 0, stripDot_mem_path hp, Reach.stop _, by omega⟩
      · rw [if_neg hd] at hp
        exact absurd hp (by simp)
  | hbool b =>
      intro ps depth maxD p hp
      rw [extract_bool, ite_self] at hp
      exact ⟨[], 0, stripDot_mem_path hp, Reach.stop _, by omega⟩
  | hnum n =>
      intro ps depth maxD p hp
      rw [extract_num, ite_self] at hp
      exact ⟨[], 0, stripDot_mem_path hp, Reach.stop _, by omega⟩
  | hstr s =>
      intro ps depth maxD p hp
      rw [extract_str, ite_self] at hp
      exact ⟨[], 0, stripDot_mem_path hp, Reach.stop _, by omega⟩
  | harr xs ih =>
      intro ps depth maxD p hp
      rw [extract_arr] at hp
      by_cases hd : maxD < depth
      · rw [if_pos hd] at hp
        exact ⟨[], 0, stripDot_mem_path hp, Reach.stop _, by omega⟩
      · rw [if_neg hd] at hp
        by_cases hpre : (opts.preserveArrays || xs.isEmpty) = true
        · rw [if_pos hpre] at hp
          exact ⟨[], 0, stripDot_mem_path hp, Reach.stop _, by omega⟩
        · rw [if_neg hpre] at hp
          rcases extractSamples_sound opts xs ih xs 3 (fun x hx => hx) ps depth maxD
              (by omega) [] p hp with h | h
          · exact absurd h (by simp)
          · exact h
  | hobj kvs ih =>
      intro ps depth maxD p hp
      rw [extract_obj] at hp
      by_cases hd : maxD < depth
      · rw [if_pos hd] at hp
        exact ⟨[], 0, stripDot_mem_path hp, Reach.stop _, by omega⟩
      · rw [if_neg hd] at hp
        exact extractMembers_sound opts kvs ih kvs (fun kv hkv => hkv) ps depth maxD
          (by omega) p hp

/-! ## Duplicate-freedom of the extractor's paths (towards C9) -/

theorem addUnique_nodup {α : Type} [DecidableEq α] {acc : List α} (h : acc.Nodup) (x : α) :
    (addUnique acc x).Nodup := by
  unfold addUnique
  by_cases hx : x ∈ acc
  · rw [if_pos hx]
    exact h
  · rw [if_neg hx]
    exact List.Nodup.append h (List.nodup_singleton x)
      (fun a ha hb => hx (by rwa [List.mem_singleton.mp hb] at ha))

theorem foldl_addUnique_nodup {α : Type} [DecidableEq α] (l : List α) :
    ∀ acc : List α, acc.Nodup → (l.foldl addUnique acc).Nodup := by
  induction l with
  | nil => exact fun acc h => h
  | cons a t ih => exact fun acc h => ih (addUnique acc a) (addUnique_nodup h a)

theorem extractSamples_nodup (opts : ProcessingOptions) :
    ∀ (xs : List JVal) (n : Nat) (pfx : String) (depth maxD : Nat) (acc : List String),
      acc.Nodup → (extractSamples opts n xs pfx depth maxD acc).Nodup := by
  intro xs
  induction xs with
  | nil =>
      intro n pfx depth maxD acc h
      cases n with
      | zero => exact h
      | succ n2 => exact h
  | cons x rest ih =>
      intro n pfx depth maxD acc h
      cases n with
      | zero => exact h
      | succ n2 =>
          show List.Nodup (extractSamples opts n2 rest pfx depth maxD
            (if x.isObjLike = true
             then (extractFieldsFromJson opts x pfx (depth + 1) maxD).foldl addUnique acc
             else addUnique acc (stripDot pfx)))
          apply ih
          by_cases hobj : x.isObjLike = true
          · rw [if_pos hobj]
            exact foldl_addUnique_nodup _ acc h
          · rw [if_neg hobj]
            exact addUnique_nodup h _

theorem sep_append_inj : ∀ (a : List Char), ∀ (b t u : List Char),
    ('.' : Char) ∉ a → ('.' : Char) ∉ b →
    (t = [] ∨ ∃ t2, t = '.' :: t2) → (u = [] ∨ ∃ u2, u = '.' :: u2) →
    a ++ t = b ++ u → a = b
  | [], b, t, u, _, hb, ht, _, h => by
      cases b with
      | nil => rfl
      | cons c b2 =>
          rw [List.nil_append, List.cons_append] at h
          rcases ht with rfl | ⟨t2, rfl⟩
          · exact absurd h.symm (List.cons_ne_nil c (b2 ++ u))
          · obtain ⟨rfl, _⟩ := List.cons.injEq '.' t2 c (b2 ++ u) |>.mp h
            exact absurd (List.mem_cons_self '.' b2) hb
  | c :: a2, b, t, u, ha, hb, ht, hu, h => by
      cases b with
      | nil =>
          rw [List.nil_append, List.cons_append] at h
          rcases hu with rfl | ⟨u2, rfl⟩
          · exact absurd h (List.cons_ne_nil c (a2 ++ t))
          · obtain ⟨rfl, _⟩ := List.cons.injEq c (a2 ++ t) '.' u2 |>.mp h
            exact absurd (List.mem_cons_self '.' a2) ha
      | cons c2 b2 =>
          rw [List.cons_append, List.cons_append] at h
          obtain ⟨rfl, h2⟩ := List.cons.injEq c (a2 ++ t) c2 (b2 ++ u) |>.mp h
          rw [sep_append_inj a2 b2 t u (fun hm => ha (List.mem_cons_of_mem c hm))
            (fun hm => hb (List.mem_cons_of_mem c hm)) ht hu h2]

theorem joinDots_append_general : ∀ (ps : List String) (x : String) (l2 : List String),
    joinDots (ps ++ x :: l2) = preOf ps ++ joinDots (x :: l2)
  | [], x, l2 => (strEmpty_append _).symm
  | [p], x, l2 => rfl
  | p :: q :: ps, x, l2 => by
      have ih : joinDots (q :: (ps ++ x :: l2)) = preOf (q :: ps) ++ joinDots (x :: l2) :=
        joinDots_append_general (q :: ps) x l2
      show joinDots (p :: q :: (ps ++ x :: l2)) = preOf (p :: q :: ps) ++ joinDots (x :: l2)
      rw [joinDots_cons2, ih, preOf_cons, preOf_cons, joinDots_cons2]
      apply strExt
      simp [strData_append, List.append_assoc]

theorem joinDots_cons_data (k : String) (r : List String) :
    ∃ t, (joinDots (k :: r)).data = k.data ++ t ∧ (t = [] ∨ ∃ t2, t = ('.' : Char) :: t2) := by
  cases r with
  | nil => exact ⟨[], by simp [joinDots], Or.inl rfl⟩
  | cons y r2 =>
      refine ⟨('.' : Char) :: (joinDots (y :: r2)).data, ?_, Or.inr ⟨_, rfl⟩⟩
      rw [joinDots_cons2, strData_append, strData_append]
      simp

theorem member_paths_differ (ps : List String) (k1 k2 : String) (r1 r2 : List String)
    (h1 : ('.' : Char) ∉ k1.data) (h2 : ('.' : Char) ∉ k2.data) (hne : k1 ≠ k2) :
    joinDots (ps ++ k1 :: r1) ≠ joinDots (ps ++ k2 :: r2) := by
  intro h
  rw [joinDots_append_general, joinDots_append_general] at h
  have hdata := congrArg String.data h
  rw [strData_append, strData_append] at hdata
  have hcancel := List.append_cancel_left hdata
  obtain ⟨t1, ht1, ht1s⟩ := joinDots_cons_data k1 r1
  obtain ⟨t2, ht2, ht2s⟩ := joinDots_cons_data k2 r2
  rw [ht1, ht2] at hcancel
  exact hne (strExt (sep_append_inj k1.data k2.data t1 t2 h1 h2 ht1s ht2s hcancel))

theorem cleanKeysMembers_mem : ∀ (kvs : List (String × JVal)) (k : String) (v : JVal),
    cleanKeysMembers kvs = true → (k, v) ∈ kvs →
    k.data.contains '.' = false ∧ cleanKeys v = true := by
  intro kvs
  induction kvs with
  | nil => intro k v _ hm; exact absurd hm (by simp)
  | cons kv rest ih =>
      intro k v hc hm
      obtain ⟨k2, v2⟩ := kv
      simp only [cleanKeysMembers, Bool.and_eq_true, Bool.not_eq_true'] at hc
      rcases List.mem_cons.mp hm with heq | hm2
      · obtain ⟨rfl, rfl⟩ := Prod.mk.injEq k v k2 v2 |>.mp (by rw [heq])
        exact ⟨hc.1.1, hc.1.2⟩
      · exact ih k v hc.2 hm2

theorem keysOk_head_not_in_rest (k : String) (v : JVal) (rest : List (String × JVal))
    (hk : keysOk ((k, v) :: rest) = true) :
    ∀ (k2 : String) (v2 : JVal), (k2, v2) ∈ rest → k2 ≠ k := by
  intro k2 v2 hm heq
  simp only [keysOk, Bool.and_eq_true, Bool.not_eq_true'] at hk
  have : rest.any (·.1 = k) = true := List.any_eq_true.mpr ⟨(k2, v2), hm, by simp [heq]⟩
  rw [hk.1] at this
  exact absurd this (by simp)

theorem extractMembers_shape (opts : ProcessingOptions) :
    ∀ (kvs : List (String × JVal)) (ps : List String) (depth maxD : Nat) (p : String),
      p ∈ extractMembers opts kvs (preOf ps) depth maxD →
      ∃ k segs, (∃ v2, (k, v2) ∈ kvs) ∧ p = joinDots (ps ++ k :: segs) := by
  intro kvs
  induction kvs with
  | nil =>
      intro ps depth maxD p hp
      exact absurd hp (by simp [extractMembers])
  | cons kv rest ih =>
      intro ps depth maxD p hp
      obtain ⟨k, v⟩ := kv
      simp only [extractMembers] at hp
      rcases List.mem_append.mp hp with h | h
      · by_cases hobj : v.isObjLike = true
        · rw [if_pos hobj, preOf_append_key] at h
          obtain ⟨segs, d, hform, _, _⟩ := extract_sound_gen opts v (ps ++ [k])
            (depth + 1) maxD p h
          refine ⟨k, segs, ⟨v, List.mem_cons_self (k, v) rest⟩, ?_⟩
          rw [hform, joinDots_append_cons]
        · rw [if_neg hobj] at h
          refine ⟨k, [], ⟨v, List.mem_cons_self (k, v) rest⟩, ?_⟩
          rw [List.mem_singleton.mp h, joinDots_append_key]
      · obtain ⟨k2, segs, ⟨v2, hv2⟩, hform⟩ := ih ps depth maxD p h
        exact ⟨k2, segs, ⟨v2, List.mem_cons_of_mem (k, v) hv2⟩, hform⟩

theorem extractMembers_nodup (opts : ProcessingOptions) :
    ∀ (kvs : List (String × JVal)) (ps : List String) (depth maxD : Nat),
      keysOk kvs = true → cleanKeysMembers kvs = true →
      (∀ kv ∈ kvs, ∀ (ps2 : List String) (depth2 maxD2 : Nat), cleanKeys kv.2 = true →
        (extractFieldsFromJson opts kv.2 (preOf ps2) depth2 maxD2).Nodup) →
      (extractMembers opts kvs (preOf ps) depth maxD).Nodup := by
  intro kvs
  induction kvs with
  | nil => intro ps depth maxD _ _ _; simp [extractMembers]
  | cons kv rest ih =>
      intro ps depth maxD hkeys hclean hIH
      obtain ⟨k, v⟩ := kv
      have hkdot : k.data.contains '.' = false ∧ cleanKeys v = true :=
        cleanKeysMembers_mem ((k, v) :: rest) k v hclean (List.mem_cons_self (k, v) rest)
      have hrestKeys : keysOk rest = true := by
        simp only [keysOk, Bool.and_eq_true] at hkeys
        exact hkeys.2
      have hrestClean : cleanKeysMembers rest = true := by
        simp only [cleanKeysMembers, Bool.and_eq_true] at hclean
        exact hclean.2
      simp only [extractMembers]
      rw [List.nodup_append]
      refine ⟨?_, ih ps depth maxD hrestKeys hrestClean
          (fun kv2 hkv2 => hIH kv2 (List.mem_cons_of_mem (k, v) hkv2)), ?_⟩
      · by_cases hobj : v.isObjLike = true
        · rw [if_pos hobj, preOf_append_key]
          exact hIH (k, v) (List.mem_cons_self (k, v) rest) (ps ++ [k]) (depth + 1) maxD
            hkdot.2
        · rw [if_neg hobj]
          exact List.nodup_singleton _
      · intro p hp1 hp2
        obtain ⟨k2, segs2, ⟨v2, hv2⟩, hform2⟩ :=
          extractMembers_shape opts rest ps depth maxD p hp2
        have hk2dot : k2.data.contains '.' = false :=
          (cleanKeysMembers_mem rest k2 v2 hrestClean hv2).1
        have hne : k2 ≠ k := keysOk_head_not_in_rest k v rest hkeys k2 v2 hv2
        have hform1 : ∃ segs1, p = joinDots (ps ++ k :: segs1) := by
          by_cases hobj : v.isObjLike = true
          · rw [if_pos hobj, preOf_append_key] at hp1
            obtain ⟨segs, d, hform, _, _⟩ := extract_sound_gen opts v (ps ++ [k])
              (depth + 1) maxD p hp1
            exact ⟨segs, by rw [hform, joinDots_append_cons]⟩
          · rw [if_neg hobj] at hp1
            exact ⟨[], by rw [List.mem_singleton.mp hp1, joinDots_append_key]⟩
        obtain ⟨segs1, hform1⟩ := hform1
        have hnotin1 : ('.' : Char) ∉ k.data := by
          intro hmem
          rw [show k.data.contains '.' = true from List.elem_eq_true_of_mem hmem] at hkdot
          exact absurd hkdot.1 (by simp)
        have hnotin2 : ('.' : Char) ∉ k2.data := by
          intro hmem
          rw [show k2.data.contains '.' = true from List.elem_eq_true_of_mem hmem] at hk2dot
          exact absurd hk2dot (by simp)
        exact member_paths_differ ps k k2 segs1 segs2 hnotin1 hnotin2
          (fun h => hne h.symm) (hform1.symm.trans hform2)

theorem extract_nodup_gen (opts : ProcessingOptions) (v : JVal) :
    ∀ (ps : List String) (depth maxD : Nat), cleanKeys v = true →
      (extractFieldsFromJson opts v (preOf ps) depth maxD).Nodup := by
  induction v using JVal.indOn with
  | hnull =>
      intro ps depth maxD _
      rw [extract_null]
      split
      · exact List.nodup_singleton _
      · exact List.nodup_nil
  | hbool b =>
      intro ps depth maxD _
      rw [extract_bool, ite_self]
      exact List.nodup_singleton _
  | hnum n =>
      intro ps depth maxD _
      rw [extract_num, ite_self]
      exact List.nodup_singleton _
  | hstr s =>
      intro ps depth maxD _
      rw [extract_str, ite_self]
      exact List.nodup_singleton _
  | harr xs ih =>
      intro ps depth maxD _
      rw [extract_arr]
      split
      · exact List.nodup_singleton _
      · split
        · exact List.nodup_singleton _
        · exact extractSamples_nodup opts xs 3 (preOf ps) depth maxD [] List.nodup_nil
  | hobj kvs ih =>
      intro ps depth maxD hc
      rw [extract_obj]
      split
      · exact List.nodup_singleton _
      · simp only [cleanKeys, Bool.and_eq_true] at hc
        exact extractMembers_nodup opts kvs ps depth maxD hc.1 hc.2
          (fun kv hkv => ih kv hkv)

/-- C9 (amended): every path returned by
`extractFieldsFromJson(v, '', 0, maxDepth)` renders a chain of object
keys and array hops reachable from the root within `maxDepth + 1` hops
(the extractor emits the current prefix once `depth > maxDepth`, one
level past the ceiling); and the returned list has no duplicates
provided every object key in `v` is free of the `.` separator and each
object's keys are distinct — without that proviso duplicates occur (see
the counterexample), because the object branch concatenates results as
a plain array and only the array-sampling branch deduplicates. -/
theorem extract_paths_sound_and_nodup (opts : ProcessingOptions) (v : JVal) (maxD : Nat) :
    (∀ p ∈ extractFieldsFromJson opts v "" 0 maxD,
      ∃ segs d, p = joinDots segs ∧ Reach v segs d ∧ d ≤ maxD + 1)
    ∧ (cleanKeys v = true → (extractFieldsFromJson opts v "" 0 maxD).Nodup) := by
  constructor
  · intro p hp
    obtain ⟨segs, d, h1, h2, h3⟩ := extract_sound_gen opts v [] 0 maxD p hp
    rw [List.nil_append] at h1
    exact ⟨segs, d, h1, h2, by omega⟩
  · intro hc
    exact extract_nodup_gen opts v [] 0 maxD hc

/-- Witness for C9: the extraction of `{"a":1,"b":{"c":2}}` under the
default options is duplicate-free. -/
theorem extract_paths_sound_and_nodup_witness :
    (extractFieldsFromJson defaultOptions
      (.obj [("a", .num 1), ("b", .obj [("c", .num 2)])]) "" 0 3).Nodup :=
  (extract_paths_sound_and_nodup defaultOptions
    (.obj [("a", .num 1), ("b", .obj [("c", .num 2)])]) 3).2 (by decide)

/-- C9 counterexample: on `{"a":{"b":1},"a.b":2}` the extractor returns
`["a.b", "a.b"]` — the nested key and the dotted top-level key render
to the same path and the object branch keeps both — so the result is
not duplicate-free in general. -/
theorem extract_duplicate_paths_counterexample :
    extractFieldsFromJson defaultOptions
      (.obj [("a", .obj [("b", .num 1)]), ("a.b", .num 2)]) "" 0 3 = ["a.b", "a.b"]
    ∧ ¬ (["a.b", "a.b"] : List String).Nodup := ⟨rfl, by decide⟩

end JsonPipeline
